import Mathlib

/-!
Verification development for the word-timing application's
timing-synchronization engine.  The definitions below are a shallow
embedding of the TypeScript source (`src/main.tsx`): the augmented
interval tree (`IntervalNode` / `IntervalTree`), the per-tick word
activation logic (`updateCurrentWords`), the navigation operations
(`jumpBack`, `jumpForward`, `jumpToSentence`), and transcript loading.
Timestamps are modelled as exact rationals; the tolerance constant
`EPSILON` is the source's `0.001`.
-/

/-- `IntervalTree.EPSILON` from the source (`private static EPSILON = 0.001`),
as an exact rational. -/
def EPSILON : ℚ := 1/1000

/-- The `WordTiming` record of the source: one timestamped word.
`end` is a Lean keyword, so the field is named `endTime`; `sentenceIndex`
is an optional integer and `probability` an optional number, as in the
source type. -/
structure WordTiming where
  word : String
  punctuated_word : Option String
  start : ℚ
  endTime : ℚ
  sentenceIndex : Option Int
  probability : Option ℚ
deriving DecidableEq

/-- The tree of `IntervalNode`s owned by the source's `IntervalTree` class.
`nil` is the `null` child pointer; a `node` carries the `start`, `end` and
augmented `max` fields plus the `data` payload and the two children,
exactly as the `IntervalNode` constructor lays them out. -/
inductive IntervalTree where
  | nil : IntervalTree
  | node (start endv maxv : ℚ) (data : WordTiming) (left right : IntervalTree) : IntervalTree
deriving DecidableEq

namespace IntervalTree

/-- `IntervalTree.insert` / `_insert` of the source: descend comparing the
new timing's `start` with each node's `start` (ties go right), attach a new
leaf (the `IntervalNode` constructor sets `start`, `end`, `max := end`),
and update `max := Math.max(max, timing.end)` on every node along the
path.  The `nil` case is the source's `if (!this.root)` root installation. -/
def insert (t : IntervalTree) (timing : WordTiming) : IntervalTree :=
  match t with
  | .nil => .node timing.start timing.endTime timing.endTime timing .nil .nil
  | .node s e m d l r =>
    if timing.start < s then
      .node s e (max m timing.endTime) d (l.insert timing) r
    else
      .node s e (max m timing.endTime) d l (r.insert timing)

/-- The interval-tree build loop of the `App` effect: start from an empty
tree and insert every timing of the transcript in input order. -/
def build (ts : List WordTiming) : IntervalTree :=
  ts.foldl insert .nil

/-- Whether a child pointer is `null` (the truthiness test
`node.left && ...` of the source's traversal guards). -/
def isNil : IntervalTree → Bool
  | .nil => true
  | .node _ _ _ _ _ _ => false

/-- The `max` field of a node (only read behind a non-`null` guard in the
source; the `nil` value is arbitrary). -/
def maxv : IntervalTree → ℚ
  | .nil => 0
  | .node _ _ m _ _ _ => m

/-- `IntervalTree.findOverlapping` / `_findOverlapping` of the source:
return `[]` at `null` or when `point > node.max + EPSILON`; push the
node's data when `point` lies in `[node.start - EPSILON, node.end + EPSILON]`;
recurse left only when the left child exists and
`point <= left.max + EPSILON`; recurse right only when the right child
exists and `point >= node.start - EPSILON`.  The result list is in the
source's push order: node first, then left subtree, then right subtree. -/
def findOverlapping (t : IntervalTree) (point : ℚ) : List WordTiming :=
  match t with
  | .nil => []
  | .node s e m d l r =>
    if m + EPSILON < point then []
    else
      (if s - EPSILON ≤ point ∧ point ≤ e + EPSILON then [d] else []) ++
      (if l.isNil = false ∧ point ≤ l.maxv + EPSILON then l.findOverlapping point else []) ++
      (if r.isNil = false ∧ s - EPSILON ≤ point then r.findOverlapping point else [])

/-- All timings stored in a tree, in the same node-left-right order that
`findOverlapping` visits them. -/
def elems : IntervalTree → List WordTiming
  | .nil => []
  | .node _ _ _ d l r => d :: (l.elems ++ r.elems)

end IntervalTree

/-- The tolerant-overlap test of `_findOverlapping`, as a Boolean on a
single timing: does `point` lie in `[start - EPSILON, end + EPSILON]`? -/
def tolB (point : ℚ) (t : WordTiming) : Bool :=
  decide (t.start - EPSILON ≤ point) && decide (point ≤ t.endTime + EPSILON)

/-- Brute-force linear scan: every inserted timing whose tolerant range
contains the point, in insertion order. -/
def bruteForce (ts : List WordTiming) (point : ℚ) : List WordTiming :=
  ts.filter (tolB point)

/-- Well-formedness of the `IntervalNode` constructor: each node's `start`
and `end` fields are copies of its `data`'s `start` and `end`. -/
def FieldsOk : IntervalTree → Prop
  | .nil => True
  | .node s e _ d l r => s = d.start ∧ e = d.endTime ∧ FieldsOk l ∧ FieldsOk r

/-- The binary-search-tree ordering `_insert` maintains: left-subtree
timings have strictly smaller `start`, right-subtree timings have `start`
greater than or equal to the node's. -/
def BSTOk : IntervalTree → Prop
  | .nil => True
  | .node s _ _ _ l r =>
      (∀ w ∈ l.elems, w.start < s) ∧ (∀ w ∈ r.elems, s ≤ w.start) ∧ BSTOk l ∧ BSTOk r

/-- The max-end augmentation invariant: each node's `max` field equals the
maximum `end` over all timings stored in its subtree (it bounds every
subtree `end` and is attained by one of them). -/
def MaxOk : IntervalTree → Prop
  | .nil => True
  | .node _ _ m d l r =>
      (∀ w ∈ d :: (l.elems ++ r.elems), w.endTime ≤ m) ∧
      (∃ w ∈ d :: (l.elems ++ r.elems), m = w.endTime) ∧
      MaxOk l ∧ MaxOk r

/-- The `App` component state that the claims speak about: the loaded
transcript (`timings`), the interval tree built from it by the
`[timings]` effect, the audio element's clock (`currentTime`, `duration`),
the active word set (`currentWordTimings`), the sentence group
(`currentSentenceWords`), and the activation mode (`persistWords`;
`false` is strict mode, `true` is persist mode). -/
structure AppState where
  timings : List WordTiming
  tree : IntervalTree
  currentTime : ℚ
  duration : ℚ
  currentWordTimings : List WordTiming
  currentSentenceWords : List WordTiming
  persistWords : Bool
deriving DecidableEq

/-- The `validCurrentWordTimings` local of `updateCurrentWords`: the raw
tolerant-overlap query result, filtered in strict mode
(`!persistWordsRef.current`) to the words with `time <= w.end`, and used
unfiltered in persist mode. -/
def validWords (s : AppState) (time : ℚ) : List WordTiming :=
  if s.persistWords then s.tree.findOverlapping time
  else (s.tree.findOverlapping time).filter (fun w => decide (time ≤ w.endTime))

/-- `updateCurrentWords(time)` of the source — one tick: query the tree,
in strict mode filter to `time <= w.end` (see `validWords`); on a
non-empty result take the first word's `sentenceIndex`, recompute the
sentence group from the full transcript when it is defined, and install
the result as the active set; on an empty result clear both sets in
strict mode and keep the whole state unchanged in persist mode.  (The
source's `if (!tree) return` guard is outside this model: a tree is
always present here, as the `[timings]` effect installs one before any
tick runs.) -/
def updateCurrentWords (s : AppState) (time : ℚ) : AppState :=
  match validWords s time with
  | [] =>
    if s.persistWords then s
    else { s with currentSentenceWords := [], currentWordTimings := [] }
  | w :: ws =>
    let s1 :=
      match w.sentenceIndex with
      | some i =>
        { s with currentSentenceWords :=
            s.timings.filter (fun timing => decide (timing.sentenceIndex = some i)) }
      | none => s
    { s1 with currentWordTimings := w :: ws }

/-- Loading a new transcript (`handleJsonInput`'s `setTimings` followed by
the `[timings]` effect): replace the timing list and rebuild the interval
tree.  No other component state is cleared — in particular the cached
active set and sentence group survive the load, as in the source. -/
def loadTranscript (s : AppState) (newTimings : List WordTiming) : AppState :=
  { s with timings := newTimings, tree := IntervalTree.build newTimings }

/-- `jumpBack(ms)` of the source: clamp `currentTime - ms/1000` below at 0,
set the clock there and tick. -/
def jumpBack (s : AppState) (ms : ℚ) : AppState :=
  let newTime := max 0 (s.currentTime - ms / 1000)
  updateCurrentWords { s with currentTime := newTime } newTime

/-- `jumpForward(ms)` of the source: advance the clock by `ms/1000`
(no clamping of any kind) and tick. -/
def jumpForward (s : AppState) (ms : ℚ) : AppState :=
  let newTime := s.currentTime + ms / 1000
  updateCurrentWords { s with currentTime := newTime } newTime

/-- The `direction` argument of `jumpToSentence`. -/
inductive Direction where
  | back : Direction
  | forward : Direction
deriving DecidableEq

/-- `direction === "back" ? currentSentenceIndex - 1 : currentSentenceIndex + 1`. -/
def targetIndex (dir : Direction) (i : Int) : Int :=
  match dir with
  | .back => i - 1
  | .forward => i + 1

/-- `jumpToSentence(direction)` of the source: bail out when the active
set is empty or its first word has no `sentenceIndex`; otherwise look up
the first transcript timing whose `sentenceIndex` is the current one ± 1
and, only if one exists, move the clock to its `start` and tick.
(The `!audioRef.current` guard concerns the external audio element and is
outside this model.) -/
def jumpToSentence (s : AppState) (dir : Direction) : AppState :=
  match s.currentWordTimings with
  | [] => s
  | w :: _ =>
    match w.sentenceIndex with
    | none => s
    | some currentSentenceIndex =>
      match s.timings.find?
          (fun timing =>
            decide (timing.sentenceIndex = some (targetIndex dir currentSentenceIndex))) with
      | none => s
      | some targetWord =>
        updateCurrentWords { s with currentTime := targetWord.start } targetWord.start

/-- Consistency of the cached sentence group with the cached active set:
whenever the active set is non-empty and its first word carries a
`sentenceIndex`, the sentence group is exactly the transcript filtered to
that index.  It holds of any freshly cleared state and every tick
preserves it. -/
def SentenceInv (s : AppState) : Prop :=
  ∀ w ws i, s.currentWordTimings = w :: ws → w.sentenceIndex = some i →
    s.currentSentenceWords =
      s.timings.filter (fun timing => decide (timing.sentenceIndex = some i))


/-- Concrete timing used by the witnesses: "hello", sentence 0, [0, 1]. -/
def wHello : WordTiming :=
  { word := "hello", punctuated_word := none, start := 0, endTime := 1,
    sentenceIndex := some 0, probability := none }

/-- Concrete timing used by the witnesses: "world", sentence 1, [4, 5]. -/
def wWorld : WordTiming :=
  { word := "world", punctuated_word := none, start := 4, endTime := 5,
    sentenceIndex := some 1, probability := none }

/-- Concrete timing with no `sentenceIndex`, [0, 1]. -/
def wPlain : WordTiming :=
  { word := "plain", punctuated_word := none, start := 0, endTime := 1,
    sentenceIndex := none, probability := none }

/-- A persist-mode state whose transcript is just `wHello`. -/
def sPersist : AppState :=
  { timings := [wHello], tree := IntervalTree.build [wHello], currentTime := 0,
    duration := 20, currentWordTimings := [], currentSentenceWords := [],
    persistWords := true }

/-- A strict-mode state whose transcript is just `wHello`. -/
def sStrict : AppState :=
  { timings := [wHello], tree := IntervalTree.build [wHello], currentTime := 0,
    duration := 20, currentWordTimings := [], currentSentenceWords := [],
    persistWords := false }

/-- A persist-mode state whose transcript is just `wPlain` (no sentence
index). -/
def sPlain : AppState :=
  { timings := [wPlain], tree := IntervalTree.build [wPlain], currentTime := 0,
    duration := 20, currentWordTimings := [], currentSentenceWords := [wWorld],
    persistWords := true }

/-- A state at the end of its 1-second audio: `currentTime = duration = 1`,
empty transcript. -/
def sClock : AppState :=
  { timings := [], tree := .nil, currentTime := 1, duration := 1,
    currentWordTimings := [], currentSentenceWords := [], persistWords := true }

theorem tolB_eq_true_iff (point : ℚ) (t : WordTiming) :
    tolB point t = true ↔ (t.start - EPSILON ≤ point ∧ point ≤ t.endTime + EPSILON) := by
  simp [tolB]

theorem elems_insert_perm (t : IntervalTree) (w : WordTiming) :
    List.Perm (t.insert w).elems (w :: t.elems) := by
  induction t with
  | nil => simp [IntervalTree.insert, IntervalTree.elems]
  | node s e m d l r ihl ihr =>
    by_cases h : w.start < s
    · simp only [IntervalTree.insert, if_pos h, IntervalTree.elems]
      have h1 : List.Perm (d :: ((l.insert w).elems ++ r.elems))
          (d :: (w :: (l.elems ++ r.elems))) := List.Perm.cons d (ihl.append_right _)
      exact h1.trans (List.Perm.swap w d _)
    · simp only [IntervalTree.insert, if_neg h, IntervalTree.elems]
      have h1 : List.Perm (d :: (l.elems ++ (r.insert w).elems))
          (d :: (l.elems ++ (w :: r.elems))) := List.Perm.cons d (ihr.append_left _)
      have h2 : List.Perm (d :: (l.elems ++ (w :: r.elems)))
          (d :: (w :: (l.elems ++ r.elems))) := List.Perm.cons d List.perm_middle
      exact (h1.trans h2).trans (List.Perm.swap w d _)

theorem elems_foldl_insert_perm (ts : List WordTiming) :
    ∀ acc : IntervalTree,
      List.Perm (ts.foldl IntervalTree.insert acc).elems (acc.elems ++ ts) := by
  induction ts with
  | nil => intro acc; simp
  | cons t ts ih =>
    intro acc
    have h1 := ih (acc.insert t)
    have h2 : List.Perm ((acc.insert t).elems ++ ts) (acc.elems ++ (t :: ts)) := by
      have h3 : List.Perm ((acc.insert t).elems ++ ts) ((t :: acc.elems) ++ ts) :=
        (elems_insert_perm acc t).append_right ts
      exact h3.trans List.perm_middle.symm
    exact h1.trans h2

theorem elems_build_perm (ts : List WordTiming) :
    List.Perm (IntervalTree.build ts).elems ts := by
  have h := elems_foldl_insert_perm ts .nil
  simpa [IntervalTree.build, IntervalTree.elems] using h

theorem fieldsOk_insert (t : IntervalTree) (w : WordTiming) (h : FieldsOk t) :
    FieldsOk (t.insert w) := by
  induction t with
  | nil => exact ⟨rfl, rfl, trivial, trivial⟩
  | node s e m d l r ihl ihr =>
    obtain ⟨hs, he, hl, hr⟩ := h
    by_cases hc : w.start < s
    · simp only [IntervalTree.insert, if_pos hc]
      exact ⟨hs, he, ihl hl, hr⟩
    · simp only [IntervalTree.insert, if_neg hc]
      exact ⟨hs, he, hl, ihr hr⟩

theorem bstOk_insert (t : IntervalTree) (w : WordTiming) (h : BSTOk t) :
    BSTOk (t.insert w) := by
  induction t with
  | nil => exact ⟨by simp [IntervalTree.elems], by simp [IntervalTree.elems], trivial, trivial⟩
  | node s e m d l r ihl ihr =>
    obtain ⟨hbl, hbr, hl, hr⟩ := h
    by_cases hc : w.start < s
    · simp only [IntervalTree.insert, if_pos hc]
      refine ⟨?_, hbr, ihl hl, hr⟩
      intro x hx
      rcases List.mem_cons.mp ((elems_insert_perm l w).mem_iff.mp hx) with h1 | h2
      · exact h1 ▸ hc
      · exact hbl x h2
    · simp only [IntervalTree.insert, if_neg hc]
      refine ⟨hbl, ?_, hl, ihr hr⟩
      intro x hx
      rcases List.mem_cons.mp ((elems_insert_perm r w).mem_iff.mp hx) with h1 | h2
      · exact h1 ▸ (not_lt.mp hc)
      · exact hbr x h2

theorem maxOk_insert (t : IntervalTree) (w : WordTiming) (h : MaxOk t) :
    MaxOk (t.insert w) := by
  induction t with
  | nil =>
    refine ⟨?_, ⟨w, ?_, rfl⟩, trivial, trivial⟩
    · intro x hx
      simp [IntervalTree.elems] at hx
      exact hx ▸ le_refl _
    · simp [IntervalTree.elems]
  | node s e m d l r ihl ihr =>
    obtain ⟨hbd, hatt, hml, hmr⟩ := h
    by_cases hc : w.start < s
    · simp only [IntervalTree.insert, if_pos hc]
      refine ⟨?_, ?_, ihl hml, hmr⟩
      · intro x hx
        rcases List.mem_cons.mp hx with h1 | h2
        · exact le_trans (hbd x (h1 ▸ List.mem_cons_self d _)) (le_max_left _ _)
        · rcases List.mem_append.mp h2 with h3 | h4
          · rcases List.mem_cons.mp ((elems_insert_perm l w).mem_iff.mp h3) with h5 | h6
            · exact h5 ▸ le_max_right _ _
            · exact le_trans
                (hbd x (List.mem_cons_of_mem d (List.mem_append_left _ h6)))
                (le_max_left _ _)
          · exact le_trans
              (hbd x (List.mem_cons_of_mem d (List.mem_append_right _ h4)))
              (le_max_left _ _)
      · rcases le_total w.endTime m with h1 | h1
        · obtain ⟨x0, hx0, hx0e⟩ := hatt
          refine ⟨x0, ?_, (max_eq_left h1).trans hx0e⟩
          rcases List.mem_cons.mp hx0 with h2 | h3
          · exact h2 ▸ List.mem_cons_self _ _
          · rcases List.mem_append.mp h3 with h4 | h5
            · exact List.mem_cons_of_mem d (List.mem_append_left _
                ((elems_insert_perm l w).mem_iff.mpr (List.mem_cons_of_mem w h4)))
            · exact List.mem_cons_of_mem d (List.mem_append_right _ h5)
        · refine ⟨w, ?_, max_eq_right h1⟩
          exact List.mem_cons_of_mem d (List.mem_append_left _
            ((elems_insert_perm l w).mem_iff.mpr (List.mem_cons_self w _)))
    · simp only [IntervalTree.insert, if_neg hc]
      refine ⟨?_, ?_, hml, ihr hmr⟩
      · intro x hx
        rcases List.mem_cons.mp hx with h1 | h2
        · exact le_trans (hbd x (h1 ▸ List.mem_cons_self d _)) (le_max_left _ _)
        · rcases List.mem_append.mp h2 with h3 | h4
          · exact le_trans
              (hbd x (List.mem_cons_of_mem d (List.mem_append_left _ h3)))
              (le_max_left _ _)
          · rcases List.mem_cons.mp ((elems_insert_perm r w).mem_iff.mp h4) with h5 | h6
            · exact h5 ▸ le_max_right _ _
            · exact le_trans
                (hbd x (List.mem_cons_of_mem d (List.mem_append_right _ h6)))
                (le_max_left _ _)
      · rcases le_total w.endTime m with h1 | h1
        · obtain ⟨x0, hx0, hx0e⟩ := hatt
          refine ⟨x0, ?_, (max_eq_left h1).trans hx0e⟩
          rcases List.mem_cons.mp hx0 with h2 | h3
          · exact h2 ▸ List.mem_cons_self _ _
          · rcases List.mem_append.mp h3 with h4 | h5
            · exact List.mem_cons_of_mem d (List.mem_append_left _ h4)
            · exact List.mem_cons_of_mem d (List.mem_append_right _
                ((elems_insert_perm r w).mem_iff.mpr (List.mem_cons_of_mem w h5)))
        · refine ⟨w, ?_, max_eq_right h1⟩
          exact List.mem_cons_of_mem d (List.mem_append_right _
            ((elems_insert_perm r w).mem_iff.mpr (List.mem_cons_self w _)))

theorem invariants_build (ts : List WordTiming) :
    FieldsOk (IntervalTree.build ts) ∧ BSTOk (IntervalTree.build ts) ∧
      MaxOk (IntervalTree.build ts) := by
  suffices h : ∀ acc : IntervalTree, FieldsOk acc → BSTOk acc → MaxOk acc →
      FieldsOk (ts.foldl IntervalTree.insert acc) ∧
        BSTOk (ts.foldl IntervalTree.insert acc) ∧
        MaxOk (ts.foldl IntervalTree.insert acc) by
    exact h .nil trivial trivial trivial
  induction ts with
  | nil => intro acc h1 h2 h3; exact ⟨h1, h2, h3⟩
  | cons t ts ih =>
    intro acc h1 h2 h3
    exact ih _ (fieldsOk_insert _ _ h1) (bstOk_insert _ _ h2) (maxOk_insert _ _ h3)

theorem filter_tolB_nil_of_end_bound (xs : List WordTiming) (point b : ℚ)
    (hb : ∀ w ∈ xs, w.endTime ≤ b) (hp : b + EPSILON < point) :
    xs.filter (tolB point) = [] := by
  apply List.filter_eq_nil_iff.mpr
  intro w hw
  simp only [tolB, Bool.and_eq_true, decide_eq_true_eq, not_and]
  intro _
  have := hb w hw
  linarith

theorem filter_tolB_nil_of_start_bound (xs : List WordTiming) (point b : ℚ)
    (hb : ∀ w ∈ xs, b ≤ w.start) (hp : point < b - EPSILON) :
    xs.filter (tolB point) = [] := by
  apply List.filter_eq_nil_iff.mpr
  intro w hw
  simp only [tolB, Bool.and_eq_true, decide_eq_true_eq, not_and]
  intro hcontra
  have := hb w hw
  linarith

theorem maxv_bound (t : IntervalTree) (hm : MaxOk t) :
    ∀ w ∈ t.elems, w.endTime ≤ t.maxv := by
  cases t with
  | nil => intro w hw; simp [IntervalTree.elems] at hw
  | node s e m d l r => exact hm.1

/-- The core traversal characterization: on a well-formed tree the pruned
traversal returns exactly the stored timings whose tolerant range
contains the point, in visit order. -/
theorem findOverlapping_eq_filter (t : IntervalTree) (point : ℚ) :
    FieldsOk t → BSTOk t → MaxOk t →
      t.findOverlapping point = t.elems.filter (tolB point) := by
  induction t with
  | nil => intro _ _ _; rfl
  | node s e m d l r ihl ihr =>
    intro hf hb hm
    obtain ⟨hs, he, hfl, hfr⟩ := hf
    obtain ⟨hbl, hbr, hbL, hbR⟩ := hb
    obtain ⟨hbd, hatt, hml, hmr⟩ := hm
    by_cases hp : m + EPSILON < point
    · rw [IntervalTree.findOverlapping, if_pos hp]
      exact (filter_tolB_nil_of_end_bound _ point m hbd hp).symm
    · rw [IntervalTree.findOverlapping, if_neg hp]
      have hL : (if l.isNil = false ∧ point ≤ l.maxv + EPSILON
            then l.findOverlapping point else []) = l.elems.filter (tolB point) := by
        cases l with
        | nil => simp [IntervalTree.isNil, IntervalTree.elems]
        | node sl el ml dl ll rl =>
          by_cases hgl : point ≤ ml + EPSILON
          · rw [if_pos ⟨rfl, by simpa [IntervalTree.maxv] using hgl⟩]
            exact ihl hfl hbL hml
          · rw [if_neg (by simp [IntervalTree.isNil, IntervalTree.maxv, hgl])]
            refine (filter_tolB_nil_of_end_bound _ point ml ?_ (not_le.mp hgl)).symm
            exact maxv_bound _ hml
      have hR : (if r.isNil = false ∧ s - EPSILON ≤ point
            then r.findOverlapping point else []) = r.elems.filter (tolB point) := by
        cases r with
        | nil => simp [IntervalTree.isNil, IntervalTree.elems]
        | node sr er mr dr lr rr =>
          by_cases hgr : s - EPSILON ≤ point
          · rw [if_pos ⟨rfl, hgr⟩]
            exact ihr hfr hbR hmr
          · rw [if_neg (by simp [IntervalTree.isNil, hgr])]
            exact (filter_tolB_nil_of_start_bound _ point s hbr (not_le.mp hgr)).symm
      rw [hL, hR]
      show _ = List.filter (tolB point) (d :: (l.elems ++ r.elems))
      rw [List.filter_cons, List.filter_append]
      by_cases hd : s - EPSILON ≤ point ∧ point ≤ e + EPSILON
      · have : tolB point d = true := by
          rw [tolB_eq_true_iff]
          exact ⟨hs ▸ hd.1, he ▸ hd.2⟩
        rw [if_pos hd, this]
        simp
      · have : tolB point d = false := by
          rw [← Bool.not_eq_true, tolB_eq_true_iff]
          rw [← hs, ← he]
          exact hd
        rw [if_neg hd, this]
        simp

theorem mem_findOverlapping_build (ts : List WordTiming) (point : ℚ) (w : WordTiming) :
    w ∈ (IntervalTree.build ts).findOverlapping point ↔
      w ∈ ts ∧ (w.start - EPSILON ≤ point ∧ point ≤ w.endTime + EPSILON) := by
  obtain ⟨h1, h2, h3⟩ := invariants_build ts
  rw [findOverlapping_eq_filter _ point h1 h2 h3]
  rw [List.mem_filter, (elems_build_perm ts).mem_iff, tolB_eq_true_iff]

/-- Claim C1: for every insertion sequence and query point, the pruned traversal
returns, as a multiset, exactly the inserted timings whose tolerant range
`[start - EPSILON, end + EPSILON]` contains the point — the same set a
brute-force linear scan over all inserted intervals produces; the
maxEnd / left-subtree / right-subtree pruning rules cause no false
negatives (and no false positives). -/
theorem findOverlapping_eq_bruteForce (ts : List WordTiming) (point : ℚ) :
    ((IntervalTree.build ts).findOverlapping point : Multiset WordTiming) =
      (bruteForce ts point : Multiset WordTiming) := by
  obtain ⟨h1, h2, h3⟩ := invariants_build ts
  rw [Multiset.coe_eq_coe, findOverlapping_eq_filter _ point h1 h2 h3, bruteForce]
  exact (elems_build_perm ts).filter (tolB point)

/-- Claim C7: after any sequence of insertions starting from the empty tree,
every node's `max` field equals the maximum `end` value over all timings
stored in that node's subtree (`MaxOk` states, node by node, that `max`
bounds every subtree `end` and is attained by one of them). -/
theorem build_maxOk (ts : List WordTiming) : MaxOk (IntervalTree.build ts) :=
  (invariants_build ts).2.2

/-- Claim C8: under exact arithmetic, an inserted interval `I` (with
`start ≤ end`) is returned by the query at `I.end + EPSILON/2` and is not
returned by the query at `I.end + 2*EPSILON`. -/
theorem epsilon_boundary (ts : List WordTiming) (I : WordTiming)
    (hmem : I ∈ ts) (hse : I.start ≤ I.endTime) :
    I ∈ (IntervalTree.build ts).findOverlapping (I.endTime + EPSILON/2) ∧
      I ∉ (IntervalTree.build ts).findOverlapping (I.endTime + 2*EPSILON) := by
  have heps : (0:ℚ) < EPSILON := by norm_num [EPSILON]
  constructor
  · rw [mem_findOverlapping_build]
    exact ⟨hmem, by linarith, by linarith⟩
  · rw [mem_findOverlapping_build]
    rintro ⟨-, -, h2⟩
    linarith

theorem updateCurrentWords_core (s : AppState) (time : ℚ) :
    (updateCurrentWords s time).timings = s.timings ∧
    (updateCurrentWords s time).tree = s.tree ∧
    (updateCurrentWords s time).persistWords = s.persistWords ∧
    (updateCurrentWords s time).currentTime = s.currentTime ∧
    (updateCurrentWords s time).duration = s.duration := by
  unfold updateCurrentWords
  split
  · split <;> exact ⟨rfl, rfl, rfl, rfl, rfl⟩
  · dsimp only
    split <;> exact ⟨rfl, rfl, rfl, rfl, rfl⟩

/-- Claim C4: in strict mode a tick's resulting active set is exactly the raw
tolerant-overlap query filtered to the words with `point <= end`, and when
that filtered set is empty both the active set and the sentence group are
cleared by the tick. -/
theorem strict_tick (s : AppState) (time : ℚ) (h : s.persistWords = false) :
    (updateCurrentWords s time).currentWordTimings =
        (s.tree.findOverlapping time).filter (fun w => decide (time ≤ w.endTime)) ∧
      ((s.tree.findOverlapping time).filter (fun w => decide (time ≤ w.endTime)) = [] →
        (updateCurrentWords s time).currentWordTimings = [] ∧
        (updateCurrentWords s time).currentSentenceWords = []) := by
  have hv : validWords s time =
      (s.tree.findOverlapping time).filter (fun w => decide (time ≤ w.endTime)) := by
    simp [validWords, h]
  cases hfl : (s.tree.findOverlapping time).filter (fun w => decide (time ≤ w.endTime)) with
  | nil =>
    refine ⟨?_, fun _ => ⟨?_, ?_⟩⟩ <;> simp [updateCurrentWords, hv, hfl, h]
  | cons w ws =>
    refine ⟨?_, fun hcontra => absurd hcontra (by simp [hfl])⟩
    cases hsi : w.sentenceIndex <;>
      simp [updateCurrentWords, hv, hfl, hsi]

/-- Claim C5: in persist mode a tick uses the raw overlap result unfiltered as
the active set, and a tick whose raw query returns no matches leaves the
whole state — in particular the previous active set and sentence group —
unchanged. -/
theorem persist_tick (s : AppState) (time : ℚ) (h : s.persistWords = true) :
    (s.tree.findOverlapping time ≠ [] →
        (updateCurrentWords s time).currentWordTimings = s.tree.findOverlapping time) ∧
      (s.tree.findOverlapping time = [] → updateCurrentWords s time = s) := by
  have hv : validWords s time = s.tree.findOverlapping time := by
    simp [validWords, h]
  cases hfl : s.tree.findOverlapping time with
  | nil => exact ⟨fun hne => absurd rfl hne, fun _ => by simp [updateCurrentWords, hv, hfl, h]⟩
  | cons w ws =>
    refine ⟨fun _ => ?_, fun hcontra => absurd hcontra (by simp [hfl])⟩
    cases hsi : w.sentenceIndex <;>
      simp [updateCurrentWords, hv, hfl, hsi]

/-- Claim C10: a tick whose computed (mode-dependent) word list is non-empty but
whose first word has no `sentenceIndex` leaves the sentence group exactly
as it was and still installs the new word list as the active set — in
both strict and persist mode. -/
theorem tick_first_no_sentence (s : AppState) (time : ℚ) (w : WordTiming)
    (ws : List WordTiming) (hv : validWords s time = w :: ws)
    (hn : w.sentenceIndex = none) :
    (updateCurrentWords s time).currentSentenceWords = s.currentSentenceWords ∧
      (updateCurrentWords s time).currentWordTimings = w :: ws := by
  constructor <;> simp [updateCurrentWords, hv, hn]

/-- Claim C6 (amended): the claim holds for every tick taken from a state
whose cached sentence group is consistent with its cached active set
(`SentenceInv` — true of any freshly cleared state and preserved by every
tick, but broken by a transcript load): whenever the resulting active set
is non-empty and its first word carries `sentenceIndex = i`, the
resulting sentence group is exactly the transcript words whose
`sentenceIndex` equals `i` (and so contains no word of another sentence).
Unconditionally the claim is false: a transcript load followed by a
persist-mode query miss retains an active set whose sentence group is not
the new transcript's filter (see the counterexample). -/
theorem tick_sentenceInv (s : AppState) (time : ℚ) (h : SentenceInv s) :
    SentenceInv (updateCurrentWords s time) := by
  intro w ws i hcw hsi
  have htim : (updateCurrentWords s time).timings = s.timings :=
    (updateCurrentWords_core s time).1
  cases hv : validWords s time with
  | nil =>
    by_cases hp : s.persistWords
    · have hs : updateCurrentWords s time = s := by simp [updateCurrentWords, hv, hp]
      rw [hs] at hcw ⊢
      exact h w ws i hcw hsi
    · have : (updateCurrentWords s time).currentWordTimings = [] := by
        simp [updateCurrentWords, hv, hp]
      rw [this] at hcw
      cases hcw
  | cons w0 ws0 =>
    have hcw0 : (updateCurrentWords s time).currentWordTimings = w0 :: ws0 := by
      cases hsi0 : w0.sentenceIndex <;> simp [updateCurrentWords, hv, hsi0]
    rw [hcw0] at hcw
    injection hcw with hw hws
    subst hw
    have hgrp : (updateCurrentWords s time).currentSentenceWords =
        s.timings.filter (fun timing => decide (timing.sentenceIndex = some i)) := by
      simp [updateCurrentWords, hv, hsi]
    rw [hgrp, htim]

theorem strict_tick_active (s : AppState) (time : ℚ) (h : s.persistWords = false) :
    (updateCurrentWords s time).currentWordTimings =
      (s.tree.findOverlapping time).filter (fun w => decide (time ≤ w.endTime)) := by
  have hv : validWords s time =
      (s.tree.findOverlapping time).filter (fun w => decide (time ≤ w.endTime)) := by
    simp [validWords, h]
  cases hfl : (s.tree.findOverlapping time).filter (fun w => decide (time ≤ w.endTime)) with
  | nil => simp [updateCurrentWords, hv, hfl, h]
  | cons w ws =>
    cases hsi : w.sentenceIndex <;> simp [updateCurrentWords, hv, hfl, hsi]

theorem mem_findOverlapping_elems (t : IntervalTree) (point : ℚ) (w : WordTiming)
    (h : w ∈ t.findOverlapping point) : w ∈ t.elems := by
  induction t with
  | nil => simp [IntervalTree.findOverlapping] at h
  | node s e m d l r ihl ihr =>
    rw [IntervalTree.findOverlapping] at h
    by_cases hp : m + EPSILON < point
    · rw [if_pos hp] at h
      cases h
    · rw [if_neg hp] at h
      show w ∈ d :: (l.elems ++ r.elems)
      rcases List.mem_append.mp h with h12 | h3
      · rcases List.mem_append.mp h12 with h1 | h2
        · split at h1
          · exact (List.mem_singleton.mp h1) ▸ List.mem_cons_self _ _
          · cases h1
        · split at h2
          · exact List.mem_cons_of_mem d (List.mem_append_left _ (ihl h2))
          · cases h2
      · split at h3
        · exact List.mem_cons_of_mem d (List.mem_append_right _ (ihr h3))
        · cases h3

theorem strict_ticks_active_sub (N : List WordTiming) :
    ∀ (ps : List ℚ) (p : ℚ) (s : AppState), s.persistWords = false →
      (∀ w ∈ s.tree.elems, w ∈ N) →
      ∀ w ∈ (ps.foldl updateCurrentWords (updateCurrentWords s p)).currentWordTimings,
        w ∈ N := by
  intro ps
  induction ps with
  | nil =>
    intro p s hp hsub w hw
    simp only [List.foldl_nil] at hw
    rw [strict_tick_active s p hp] at hw
    exact hsub w (mem_findOverlapping_elems _ _ _ (List.mem_filter.mp hw).1)
  | cons q ps ih =>
    intro p s hp hsub w hw
    simp only [List.foldl_cons] at hw
    exact ih q (updateCurrentWords s p)
      (by rw [(updateCurrentWords_core s p).2.2.1]; exact hp)
      (by rw [(updateCurrentWords_core s p).2.1]; exact hsub) w hw

theorem strict_ticks_group_sub (N : List WordTiming)
    (hN : ∀ w ∈ N, w.sentenceIndex ≠ none) :
    ∀ (ps : List ℚ) (p : ℚ) (s : AppState), s.persistWords = false →
      s.timings = N → (∀ w ∈ s.tree.elems, w ∈ N) →
      ∀ w ∈ (ps.foldl updateCurrentWords (updateCurrentWords s p)).currentSentenceWords,
        w ∈ N := by
  intro ps
  induction ps with
  | nil =>
    intro p s hp htim hsub w hw
    simp only [List.foldl_nil] at hw
    cases hv : validWords s p with
    | nil =>
      have hgrp : (updateCurrentWords s p).currentSentenceWords = [] := by
        simp [updateCurrentWords, hv, hp]
      rw [hgrp] at hw
      cases hw
    | cons w0 ws0 =>
      have hw0N : w0 ∈ N := by
        have hw0v : w0 ∈ validWords s p := hv ▸ List.mem_cons_self _ _
        simp only [validWords, hp, Bool.false_eq_true, if_false] at hw0v
        exact hsub w0 (mem_findOverlapping_elems _ _ _ (List.mem_filter.mp hw0v).1)
      cases hi : w0.sentenceIndex with
      | none => exact absurd hi (hN w0 hw0N)
      | some i =>
        have hgrp : (updateCurrentWords s p).currentSentenceWords =
            s.timings.filter (fun timing => decide (timing.sentenceIndex = some i)) := by
          simp [updateCurrentWords, hv, hi]
        rw [hgrp, htim] at hw
        exact (List.mem_filter.mp hw).1
  | cons q ps ih =>
    intro p s hp htim hsub w hw
    simp only [List.foldl_cons] at hw
    exact ih q (updateCurrentWords s p)
      (by rw [(updateCurrentWords_core s p).2.2.1]; exact hp)
      (by rw [(updateCurrentWords_core s p).1]; exact htim)
      (by rw [(updateCurrentWords_core s p).2.1]; exact hsub) w hw

/-- Claim C2 (amended): after loading a new transcript, in strict mode no
word that belonged only to the old transcript ever appears in the active
set of any subsequent tick, and — provided every word of the new
transcript carries a `sentenceIndex` — none ever appears in the sentence
group of any subsequent tick either.  (The load clears neither cached
set, so without these provisos the original claim fails: persist-mode
ticks retain the stale active set and sentence group across query
misses, and a strict-mode tick whose first matched word lacks a
`sentenceIndex` skips the group recompute and so retains stale sentence
words; see the counterexample.) -/
theorem load_strict_no_stale (s : AppState) (newT : List WordTiming)
    (p : ℚ) (ps : List ℚ) (h : s.persistWords = false) :
    (∀ w ∈ ((p :: ps).foldl updateCurrentWords (loadTranscript s newT)).currentWordTimings,
        w ∈ newT) ∧
      ((∀ w ∈ newT, w.sentenceIndex ≠ none) →
        ∀ w ∈ ((p :: ps).foldl updateCurrentWords (loadTranscript s newT)).currentSentenceWords,
          w ∈ newT) := by
  constructor
  · intro w hw
    simp only [List.foldl_cons] at hw
    refine strict_ticks_active_sub newT ps p (loadTranscript s newT) h ?_ w hw
    intro x hx
    exact (elems_build_perm newT).mem_iff.mp (by simpa [loadTranscript] using hx)
  · intro hN w hw
    simp only [List.foldl_cons] at hw
    refine strict_ticks_group_sub newT hN ps p (loadTranscript s newT) h rfl ?_ w hw
    intro x hx
    exact (elems_build_perm newT).mem_iff.mp (by simpa [loadTranscript] using hx)

/-- Claim C9: `jumpToSentence` is a no-op — the state is returned unchanged —
whenever the active set is empty, or its first word has no
`sentenceIndex`, or no transcript word carries the adjacent sentence
index. -/
theorem jumpToSentence_noop (s : AppState) (dir : Direction)
    (h : s.currentWordTimings = [] ∨
      (∃ w ws, s.currentWordTimings = w :: ws ∧ w.sentenceIndex = none) ∨
      (∃ w ws i, s.currentWordTimings = w :: ws ∧ w.sentenceIndex = some i ∧
        ∀ t ∈ s.timings, t.sentenceIndex ≠ some (targetIndex dir i))) :
    jumpToSentence s dir = s := by
  rcases h with h1 | ⟨w, ws, hcw, hn⟩ | ⟨w, ws, i, hcw, hsi, hno⟩
  · simp [jumpToSentence, h1]
  · simp [jumpToSentence, hcw, hn]
  · have hfind : s.timings.find?
        (fun timing => decide (timing.sentenceIndex = some (targetIndex dir i))) = none := by
      apply List.find?_eq_none.mpr
      intro t ht
      simpa using hno t ht
    simp [jumpToSentence, hcw, hsi, hfind]

/-- Claim C3 (amended): `jumpBack(ms)` moves the clock to
`max 0 (currentTime - ms/1000)` — clamped below at 0 only — and
`jumpForward(ms)` moves it to `currentTime + ms/1000` with no clamping to
the duration; each then performs exactly a tick at the resulting point. -/
theorem jump_by_offset (s : AppState) (ms : ℚ) :
    (jumpBack s ms).currentTime = max 0 (s.currentTime - ms / 1000) ∧
      (jumpForward s ms).currentTime = s.currentTime + ms / 1000 ∧
      jumpBack s ms =
        updateCurrentWords { s with currentTime := max 0 (s.currentTime - ms / 1000) }
          (max 0 (s.currentTime - ms / 1000)) ∧
      jumpForward s ms =
        updateCurrentWords { s with currentTime := s.currentTime + ms / 1000 }
          (s.currentTime + ms / 1000) := by
  refine ⟨?_, ?_, rfl, rfl⟩
  · exact (updateCurrentWords_core
      { s with currentTime := max 0 (s.currentTime - ms / 1000) }
      (max 0 (s.currentTime - ms / 1000))).2.2.2.1
  · exact (updateCurrentWords_core
      { s with currentTime := s.currentTime + ms / 1000 }
      (s.currentTime + ms / 1000)).2.2.2.1

/-- Counterexample to claim C2 as stated, in both modes.  Persist mode:
activate `wHello`, load the replacement transcript `[wWorld]`, then tick
at `1/2` — a point where the new transcript has no matching interval —
and the stale word `wHello`, which belongs only to the old transcript, is
still the tick's active set.  Strict mode: activate `wHello` (sentence
group becomes `[wHello]`), load `[wPlain]` whose only word has no
`sentenceIndex`, tick at `1/2` — the tick matches `wPlain`, skips the
group recompute, and its resulting sentence group still holds the stale
word `wHello`. -/
theorem load_stale_word_persists :
    (wHello ∉ [wWorld] ∧
      (updateCurrentWords (loadTranscript (updateCurrentWords sPersist (1/2)) [wWorld])
          (1/2)).currentWordTimings = [wHello]) ∧
      (wHello ∉ [wPlain] ∧
        (updateCurrentWords (loadTranscript (updateCurrentWords sStrict (1/2)) [wPlain])
            (1/2)).currentSentenceWords = [wHello]) := by
  norm_num [updateCurrentWords, validWords, loadTranscript, IntervalTree.build,
    IntervalTree.insert, IntervalTree.findOverlapping, IntervalTree.isNil,
    IntervalTree.maxv, EPSILON, sPersist, sStrict, wHello, wWorld, wPlain]
  intro hwords
  exact absurd hwords (by decide)

/-- Counterexample to claim C6 as stated: after activating `wHello` in
persist mode and loading the replacement transcript `[wWorld]`, a tick at
`1/2` misses the new transcript and retains the cached state, so the
tick's resulting active set is `[wHello]` — non-empty, first element with
`sentenceIndex = 0` — while its resulting sentence group is not the full
transcript filtered to `sentenceIndex = 0` (that filter is empty, the
group is the stale `[wHello]`). -/
theorem tick_stale_sentence_group :
    (updateCurrentWords (loadTranscript (updateCurrentWords sPersist (1/2)) [wWorld])
        (1/2)).currentWordTimings = [wHello] ∧
      wHello.sentenceIndex = some 0 ∧
      (updateCurrentWords (loadTranscript (updateCurrentWords sPersist (1/2)) [wWorld])
          (1/2)).currentSentenceWords ≠
        ((updateCurrentWords (loadTranscript (updateCurrentWords sPersist (1/2)) [wWorld])
            (1/2)).timings.filter
          (fun timing => decide (timing.sentenceIndex = some 0))) := by
  norm_num [updateCurrentWords, validWords, loadTranscript, IntervalTree.build,
    IntervalTree.insert, IntervalTree.findOverlapping, IntervalTree.isNil,
    IntervalTree.maxv, EPSILON, sPersist, wHello, wWorld]

/-- Counterexample to claim C3 as stated: with `currentTime = duration = 1`, `jumpForward`
by 1000 ms lands at 2, not at `min duration (currentTime + 1)` = 1 — the
forward jump is not clamped to `[0, duration]`. -/
theorem jumpForward_not_clamped :
    (jumpForward sClock 1000).currentTime ≠
      min sClock.duration (sClock.currentTime + 1000 / 1000) := by
  norm_num [jumpForward, updateCurrentWords, validWords, IntervalTree.findOverlapping,
    sClock, EPSILON]

/-- Witness for C8 at `ts = [wHello]`, `I = wHello`. -/
theorem epsilon_boundary_witness :
    (wHello ∈ [wHello] ∧ wHello.start ≤ wHello.endTime) ∧
      (wHello ∈ (IntervalTree.build [wHello]).findOverlapping (wHello.endTime + EPSILON/2) ∧
        wHello ∉ (IntervalTree.build [wHello]).findOverlapping (wHello.endTime + 2*EPSILON)) :=
  ⟨⟨List.mem_singleton.mpr rfl, by norm_num [wHello]⟩,
    epsilon_boundary [wHello] wHello (List.mem_singleton.mpr rfl) (by norm_num [wHello])⟩

/-- Witness for C4 at the strict-mode state `sStrict` and point 0. -/
theorem strict_tick_witness :
    sStrict.persistWords = false ∧
      ((updateCurrentWords sStrict 0).currentWordTimings =
          (sStrict.tree.findOverlapping 0).filter (fun w => decide ((0:ℚ) ≤ w.endTime)) ∧
        ((sStrict.tree.findOverlapping 0).filter (fun w => decide ((0:ℚ) ≤ w.endTime)) = [] →
          (updateCurrentWords sStrict 0).currentWordTimings = [] ∧
          (updateCurrentWords sStrict 0).currentSentenceWords = [])) :=
  ⟨rfl, strict_tick sStrict 0 rfl⟩

/-- Witness for C5 at the persist-mode state `sPersist` and point 0. -/
theorem persist_tick_witness :
    sPersist.persistWords = true ∧
      ((sPersist.tree.findOverlapping 0 ≠ [] →
          (updateCurrentWords sPersist 0).currentWordTimings =
            sPersist.tree.findOverlapping 0) ∧
        (sPersist.tree.findOverlapping 0 = [] → updateCurrentWords sPersist 0 = sPersist)) :=
  ⟨rfl, persist_tick sPersist 0 rfl⟩

/-- Witness for C10 at `sPlain` ticking at `1/2`: the computed word list is
`[wPlain]`, whose first word has no sentence index. -/
theorem tick_first_no_sentence_witness :
    (validWords sPlain (1/2) = [wPlain] ∧ wPlain.sentenceIndex = none) ∧
      ((updateCurrentWords sPlain (1/2)).currentSentenceWords = sPlain.currentSentenceWords ∧
        (updateCurrentWords sPlain (1/2)).currentWordTimings = [wPlain]) := by
  have hv : validWords sPlain (1/2) = [wPlain] := by
    norm_num [validWords, sPlain, IntervalTree.build, IntervalTree.insert,
      IntervalTree.findOverlapping, IntervalTree.isNil, IntervalTree.maxv, EPSILON, wPlain]
  exact ⟨⟨hv, rfl⟩, tick_first_no_sentence sPlain (1/2) wPlain [] hv rfl⟩

/-- Witness for C6 at `sStrict` (empty cached active set, so `SentenceInv`
holds vacuously) ticking at 0. -/
theorem tick_sentenceInv_witness :
    SentenceInv sStrict ∧ SentenceInv (updateCurrentWords sStrict 0) := by
  have h : SentenceInv sStrict := by
    intro w ws i hcw hsi
    simp [sStrict] at hcw
  exact ⟨h, tick_sentenceInv sStrict 0 h⟩

/-- Witness for C9 at `sStrict` (empty active set) jumping back. -/
theorem jumpToSentence_noop_witness :
    (sStrict.currentWordTimings = [] ∨
      (∃ w ws, sStrict.currentWordTimings = w :: ws ∧ w.sentenceIndex = none) ∨
      (∃ w ws i, sStrict.currentWordTimings = w :: ws ∧ w.sentenceIndex = some i ∧
        ∀ t ∈ sStrict.timings, t.sentenceIndex ≠ some (targetIndex Direction.back i))) ∧
      jumpToSentence sStrict Direction.back = sStrict :=
  ⟨Or.inl rfl, jumpToSentence_noop sStrict Direction.back (Or.inl rfl)⟩

/-- Witness for the amended C2: strict mode, load `[wWorld]` and tick once
at 0 — every active word is a new-transcript word. -/
theorem load_strict_no_stale_witness :
    sStrict.persistWords = false ∧
      ((∀ w ∈ ((0 :: ([] : List ℚ)).foldl updateCurrentWords
            (loadTranscript sStrict [wWorld])).currentWordTimings, w ∈ [wWorld]) ∧
        ((∀ w ∈ [wWorld], w.sentenceIndex ≠ none) →
          ∀ w ∈ ((0 :: ([] : List ℚ)).foldl updateCurrentWords
              (loadTranscript sStrict [wWorld])).currentSentenceWords, w ∈ [wWorld])) :=
  ⟨rfl, load_strict_no_stale sStrict [wWorld] 0 [] rfl⟩
